import Mathlib

/-!
Verification of the batch-windowed pipeline controller of cudamapper
(`src/cudamapper/src/main.cpp`).

The controller sweeps a query window and an inner target window over a read
collection, building an index per step, running the matcher with a split
point, detecting overlaps and emitting PAF records.  We embed the loop of
`main` as a pure function producing the trace of steps (the ranges passed to
`Index::create_index` and the split point passed to `Matcher`), and prove or
refute the specified properties over that trace.

`Index::create_index` and `Index::number_of_reads` are declared but not
defined in the sources; their read-count behaviour is modelled from the
spec (ReadRange is a half-open interval of read indices; the index reports
how many reads it actually indexed, which may be fewer than requested near
end-of-input).
-/

/-- A half-open interval `[start, stop)` of read indices, as pushed into the
`ranges` vector of `main` (`std::pair<std::uint64_t, std::uint64_t>`). -/
structure ReadRange where
  start : Nat
  stop : Nat
deriving DecidableEq

/-- Modelled from the spec: the number of reads of the collection (of size
`numReads`) that fall inside the half-open range `r` — what
`Index::number_of_reads` reports for an index built over `r`, clipped to
end-of-input. -/
def readCount (numReads : Nat) (r : ReadRange) : Nat :=
  min r.stop numReads - min r.start numReads

/-- Modelled from the spec: `Index::number_of_reads` for an index built over
a list of (ascending, non-overlapping) ranges: the reads of each range that
actually exist. -/
def readCountRanges (numReads : Nat) (rs : List ReadRange) : Nat :=
  (rs.map (readCount numReads)).sum

/-- Whether a step of the sweep is a self comparison of the query window
(outer loop body) or a query-versus-target comparison (inner loop body). -/
inductive StepKind
  | self
  | cross
deriving DecidableEq

/-- One step of the sweep: the kind, the ranges handed to
`Index::create_index` (in push order), and the split point handed to the
`Matcher` constructor. -/
structure Step where
  kind : StepKind
  ranges : List ReadRange
  matchPoint : Nat
deriving DecidableEq

/-- The inner target loop of `main` (`while(true)` over targets,
main.cpp:139-191): each iteration indexes the query range followed by the
current target range `[targetStart, targetStart + indexSize)`, runs the
matcher with split point `query_range.second - query_range.first`, and stops
once the combined index reports fewer than `2 * indexSize` reads; otherwise
the target window advances to `target_end + 1`.  `fuel` bounds the number of
iterations (the C++ loop is `while(true)`); every theorem below supplies
enough fuel for the loop to reach its exit condition. -/
def innerLoop (numReads indexSize : Nat) (queryRange : ReadRange) :
    Nat → Nat → List Step
  | 0, _ => []
  | fuel + 1, targetStart =>
    let targetRange : ReadRange := ⟨targetStart, targetStart + indexSize⟩
    let step : Step :=
      ⟨.cross, [queryRange, targetRange], queryRange.stop - queryRange.start⟩
    if readCountRanges numReads [queryRange, targetRange] < 2 * indexSize then
      [step]
    else
      step :: innerLoop numReads indexSize queryRange fuel
        (targetStart + indexSize + 1)

/-- The outer query loop of `main` (`while(true)`, main.cpp:85-195): each
iteration indexes the single query range `[queryStart, queryStart +
indexSize)`, runs the matcher with split point `0`, and stops if that index
reports fewer than `indexSize` reads; otherwise it runs the inner target
loop starting at `query_end + 1` and then advances the query window to
`query_end + 1`. -/
def outerLoop (numReads indexSize : Nat) : Nat → Nat → List Step
  | 0, _ => []
  | fuel + 1, queryStart =>
    let queryRange : ReadRange := ⟨queryStart, queryStart + indexSize⟩
    let step : Step := ⟨.self, [queryRange], 0⟩
    if readCount numReads queryRange < indexSize then
      [step]
    else
      step ::
        (innerLoop numReads indexSize queryRange fuel
            (queryStart + indexSize + 1) ++
          outerLoop numReads indexSize fuel (queryStart + indexSize + 1))

/-- The whole sweep of `main` on a collection of `numReads` reads with batch
size `indexSize`, started at `query_start = 0`: the trace of all indexing /
matching steps in execution order.  The fuel `numReads + 2` is ample: each
loop advances its window start by at least `indexSize + 1` per iteration and
exits once the window passes the end of the collection. -/
def run (numReads indexSize : Nat) : List Step :=
  outerLoop numReads indexSize (numReads + 2) 0

/-- The OUTER_SELF steps of a trace. -/
def selfSteps (l : List Step) : List Step :=
  l.filter fun s => decide (s.kind = StepKind.self)

/-- The INNER_CROSS steps of a trace. -/
def crossSteps (l : List Step) : List Step :=
  l.filter fun s => decide (s.kind = StepKind.cross)

theorem mem_innerLoop {numReads indexSize : Nat} {queryRange : ReadRange}
    {fuel targetStart : Nat} {s : Step}
    (hs : s ∈ innerLoop numReads indexSize queryRange fuel targetStart) :
    ∃ ts, targetStart ≤ ts ∧
      s = ⟨.cross, [queryRange, ⟨ts, ts + indexSize⟩],
        queryRange.stop - queryRange.start⟩ := by
  induction fuel generalizing targetStart with
  | zero => simp [innerLoop] at hs
  | succ fuel ih =>
    simp only [innerLoop] at hs
    by_cases h : readCountRanges numReads
        [queryRange, ⟨targetStart, targetStart + indexSize⟩] < 2 * indexSize
    · rw [if_pos h, List.mem_singleton] at hs
      exact ⟨targetStart, Nat.le_refl _, hs⟩
    · rw [if_neg h] at hs
      rcases List.mem_cons.mp hs with h' | h'
      · exact ⟨targetStart, Nat.le_refl _, h'⟩
      · obtain ⟨ts, hts, rfl⟩ := ih h'
        exact ⟨ts, by omega, rfl⟩

theorem mem_outerLoop {numReads indexSize : Nat} {fuel queryStart : Nat}
    {s : Step} (hs : s ∈ outerLoop numReads indexSize fuel queryStart) :
    (∃ qs, queryStart ≤ qs ∧ s = ⟨.self, [⟨qs, qs + indexSize⟩], 0⟩) ∨
    (∃ qs ts, queryStart ≤ qs ∧ qs + indexSize + 1 ≤ ts ∧
      s = ⟨.cross, [⟨qs, qs + indexSize⟩, ⟨ts, ts + indexSize⟩], indexSize⟩) := by
  induction fuel generalizing queryStart with
  | zero => simp [outerLoop] at hs
  | succ fuel ih =>
    simp only [outerLoop] at hs
    by_cases h : readCount numReads ⟨queryStart, queryStart + indexSize⟩ <
        indexSize
    · rw [if_pos h, List.mem_singleton] at hs
      exact .inl ⟨queryStart, Nat.le_refl _, hs⟩
    · rw [if_neg h] at hs
      rcases List.mem_cons.mp hs with h' | h'
      · exact .inl ⟨queryStart, Nat.le_refl _, h'⟩
      · rcases List.mem_append.mp h' with h'' | h''
        · obtain ⟨ts, hts, rfl⟩ := mem_innerLoop h''
          refine .inr ⟨queryStart, ts, Nat.le_refl _, hts, ?_⟩
          simp
        · rcases ih h'' with ⟨qs, hqs, rfl⟩ | ⟨qs, ts, hqs, hts, rfl⟩
          · exact .inl ⟨qs, by omega, rfl⟩
          · exact .inr ⟨qs, ts, by omega, hts, rfl⟩

/-- C1. Refutation by evaluation: for a collection of `N = 4` reads with
`batch_size = 1` the sweep performs 3 OUTER_SELF steps, not
`ceil(4 / 1) = 4`, with query windows `[0,1)`, `[2,3)`, `[4,5)`; these do
not partition `[0, 4)` — read index `1` (and `3`) falls in no range of any
step, because the advancement `query_start = query_end + 1`
(main.cpp:132, 189, 193) skips one read at every window boundary. -/
theorem c1_windows_skip_reads :
    (selfSteps (run 4 1)).length = 3 ∧ (4 + 1 - 1) / 1 = 4 ∧
      selfSteps (run 4 1) =
        [⟨.self, [⟨0, 1⟩], 0⟩, ⟨.self, [⟨2, 3⟩], 0⟩, ⟨.self, [⟨4, 5⟩], 0⟩] ∧
      ((run 4 1).all fun s => s.ranges.all fun r =>
        !(decide (r.start ≤ 1) && decide (1 < r.stop))) = true := by
  decide

/-- C3. In every OUTER_SELF step the split point passed to the Matcher
is `0` (main.cpp:103, 107), and in every INNER_CROSS step the split point
equals the width of the query window used to build that step's two-range
index (main.cpp:156, 160), for every value of `batch_size`. -/
theorem c3_split_points (numReads indexSize : Nat) (s : Step)
    (hs : s ∈ run numReads indexSize) :
    (s.kind = .self → s.matchPoint = 0) ∧
    (s.kind = .cross → ∃ qr tr, s.ranges = [qr, tr] ∧
      s.matchPoint = qr.stop - qr.start) := by
  rcases mem_outerLoop hs with ⟨qs, _, rfl⟩ | ⟨qs, ts, _, _, rfl⟩
  · exact ⟨(fun _ => rfl), (fun h => nomatch h)⟩
  · refine ⟨(fun h => nomatch h), (fun _ => ?_)⟩
    exact ⟨⟨qs, qs + indexSize⟩, ⟨ts, ts + indexSize⟩, rfl, by simp⟩

/-- Closed witness for `c3_split_points`: the first cross step of
`run 3 1` carries split point `1`, the width of its query window. -/
theorem c3_split_points_witness :
    ∃ qr tr, (⟨.cross, [⟨0, 1⟩, ⟨2, 3⟩], 1⟩ : Step).ranges = [qr, tr] ∧
      (⟨.cross, [⟨0, 1⟩, ⟨2, 3⟩], 1⟩ : Step).matchPoint =
        qr.stop - qr.start :=
  (c3_split_points 3 1 ⟨.cross, [⟨0, 1⟩, ⟨2, 3⟩], 1⟩ (by decide)).2 rfl

/-- C5. At every step of the sweep each window ends exactly
`batch_size` after its start (`query_end = query_start + batch_size`,
`target_end = target_start + batch_size`, main.cpp:74-75, 132-133,
189-194), and whenever a target window exists its start lies strictly
after the query window's start. -/
theorem c5_window_invariants (numReads indexSize : Nat) (s : Step)
    (hs : s ∈ run numReads indexSize) :
    (∀ r ∈ s.ranges, r.stop = r.start + indexSize) ∧
    (s.kind = .cross → ∃ qr tr, s.ranges = [qr, tr] ∧ qr.start < tr.start) := by
  rcases mem_outerLoop hs with ⟨qs, _, rfl⟩ | ⟨qs, ts, _, hts, rfl⟩
  · refine ⟨?_, (fun h => nomatch h)⟩
    intro r hr
    rw [List.mem_singleton] at hr
    subst hr
    rfl
  · refine ⟨?_, (fun _ => ⟨⟨qs, qs + indexSize⟩, ⟨ts, ts + indexSize⟩, rfl,
      by show qs < ts; omega⟩)⟩
    intro r hr
    simp only [List.mem_cons, List.mem_singleton, List.not_mem_nil,
      or_false] at hr
    rcases hr with rfl | rfl <;> rfl

/-- Closed witness for `c5_window_invariants`, at the first self step of
`run 3 1`. -/
theorem c5_window_invariants_witness :
    (⟨0, 1⟩ : ReadRange).stop = (⟨0, 1⟩ : ReadRange).start + 1 ∧
      ∃ qr tr, (⟨.cross, [⟨0, 1⟩, ⟨2, 3⟩], 1⟩ : Step).ranges = [qr, tr] ∧
        qr.start < tr.start :=
  ⟨(c5_window_invariants 3 1 ⟨.self, [⟨0, 1⟩], 0⟩ (by decide)).1 ⟨0, 1⟩
      (by decide),
    (c5_window_invariants 3 1 ⟨.cross, [⟨0, 1⟩, ⟨2, 3⟩], 1⟩ (by decide)).2
      rfl⟩

/-- C7. Every INNER_CROSS step builds its index over exactly two
ReadRanges, the current query window first and the current target window
second, in push order (main.cpp:142-148). -/
theorem c7_cross_two_ranges (numReads indexSize : Nat) (s : Step)
    (hs : s ∈ run numReads indexSize) (hk : s.kind = .cross) :
    ∃ qs ts, s.ranges =
      [⟨qs, qs + indexSize⟩, ⟨ts, ts + indexSize⟩] ∧
      qs + indexSize + 1 ≤ ts := by
  rcases mem_outerLoop hs with ⟨qs, _, rfl⟩ | ⟨qs, ts, _, hts, rfl⟩
  · exact nomatch hk
  · exact ⟨qs, ts, rfl, hts⟩

theorem mem_of_getLast?_mem {α : Type} {l : List α} {x : α}
    (h : x ∈ l.getLast?) : x ∈ l := by
  obtain ⟨hne, rfl⟩ := List.mem_getLast?_eq_getLast h
  exact List.getLast_mem hne

theorem innerLoop_ne_nil (numReads indexSize : Nat) (queryRange : ReadRange)
    (fuel targetStart : Nat) :
    innerLoop numReads indexSize queryRange (fuel + 1) targetStart ≠ [] := by
  simp only [innerLoop]
  split <;> simp

theorem innerLoop_head (numReads indexSize : Nat) (queryRange : ReadRange)
    (fuel targetStart : Nat) :
    (innerLoop numReads indexSize queryRange (fuel + 1) targetStart).head? =
      some ⟨.cross, [queryRange, ⟨targetStart, targetStart + indexSize⟩],
        queryRange.stop - queryRange.start⟩ := by
  simp only [innerLoop]
  split <;> rfl

theorem outerLoop_ne_nil (numReads indexSize : Nat) (fuel queryStart : Nat) :
    outerLoop numReads indexSize (fuel + 1) queryStart ≠ [] := by
  simp only [outerLoop]
  split <;> simp

theorem outerLoop_head (numReads indexSize : Nat) (fuel queryStart : Nat) :
    (outerLoop numReads indexSize (fuel + 1) queryStart).head? =
      some ⟨.self, [⟨queryStart, queryStart + indexSize⟩], 0⟩ := by
  simp only [outerLoop]
  split <;> rfl

/-- The window-advancement relation between two consecutive steps of the
trace: a self step is followed by a cross step whose initial target window
starts at `query_end + 1` (main.cpp:132-133); a cross step is followed
either by a cross step over the advanced target window starting at
`target_end + 1` (main.cpp:189-190) or by the self step of the advanced
query window starting at `query_end + 1` (main.cpp:193-194); each new
window ends `batch_size` after its start. -/
def advOk (indexSize : Nat) (s s' : Step) : Prop :=
  match s.kind, s'.kind with
  | .self, .cross => ∃ qr, s.ranges = [qr] ∧
      s'.ranges = [qr, ⟨qr.stop + 1, qr.stop + 1 + indexSize⟩]
  | .cross, .cross => ∃ qr tr, s.ranges = [qr, tr] ∧
      s'.ranges = [qr, ⟨tr.stop + 1, tr.stop + 1 + indexSize⟩]
  | .cross, .self => ∃ qr tr, s.ranges = [qr, tr] ∧
      s'.ranges = [⟨qr.stop + 1, qr.stop + 1 + indexSize⟩]
  | .self, .self => True

theorem innerLoop_chain_adv (numReads indexSize : Nat) (qr : ReadRange) :
    ∀ fuel targetStart,
      List.Chain' (advOk indexSize)
        (innerLoop numReads indexSize qr fuel targetStart)
  | 0, _ => List.chain'_nil
  | fuel + 1, t => by
    simp only [innerLoop]
    split
    · exact List.chain'_singleton _
    · rw [List.chain'_cons']
      refine ⟨?_, innerLoop_chain_adv numReads indexSize qr fuel
        (t + indexSize + 1)⟩
      intro y hy
      cases fuel with
      | zero => simp [innerLoop] at hy
      | succ f =>
        rw [Option.mem_def, innerLoop_head] at hy
        obtain rfl := Option.some.inj hy
        exact ⟨qr, ⟨t, t + indexSize⟩, rfl, rfl⟩

theorem outerLoop_chain_adv (numReads indexSize : Nat) :
    ∀ fuel queryStart,
      List.Chain' (advOk indexSize)
        (outerLoop numReads indexSize fuel queryStart)
  | 0, _ => List.chain'_nil
  | fuel + 1, q => by
    simp only [outerLoop]
    split
    · exact List.chain'_singleton _
    · rw [List.chain'_cons']
      constructor
      · intro y hy
        cases fuel with
        | zero => simp [innerLoop, outerLoop] at hy
        | succ f =>
          rw [Option.mem_def,
            List.head?_append_of_ne_nil _ (innerLoop_ne_nil _ _ _ _ _),
            innerLoop_head] at hy
          obtain rfl := Option.some.inj hy
          exact ⟨⟨q, q + indexSize⟩, rfl, rfl⟩
      · rw [List.chain'_append]
        refine ⟨innerLoop_chain_adv numReads indexSize _ fuel
            (q + indexSize + 1),
          outerLoop_chain_adv numReads indexSize fuel (q + indexSize + 1),
          ?_⟩
        intro x hx y hy
        obtain ⟨ts, _, rfl⟩ := mem_innerLoop (mem_of_getLast?_mem hx)
        cases fuel with
        | zero => simp [outerLoop] at hy
        | succ f =>
          rw [Option.mem_def, outerLoop_head] at hy
          obtain rfl := Option.some.inj hy
          exact ⟨⟨q, q + indexSize⟩, ⟨ts, ts + indexSize⟩, rfl, rfl⟩

theorem getLast?_cons_of_ne_nil {α : Type} {l : List α} (a : α)
    (h : l ≠ []) : (a :: l).getLast? = l.getLast? := by
  cases l with
  | nil => exact absurd rfl h
  | cons b l => exact List.getLast?_cons_cons

theorem readCount_le (numReads a indexSize : Nat) :
    readCount numReads ⟨a, a + indexSize⟩ ≤ indexSize := by
  show min (a + indexSize) numReads - min a numReads ≤ indexSize
  omega

theorem readCount_pos_start_lt {numReads : Nat} {r : ReadRange}
    (h : 0 < readCount numReads r) : r.start < numReads := by
  unfold readCount at h
  omega

theorem readCountRanges_pair (numReads : Nat) (a b : ReadRange) :
    readCountRanges numReads [a, b] =
      readCount numReads a + readCount numReads b := by
  simp [readCountRanges]

theorem readCountRanges_single (numReads : Nat) (a : ReadRange) :
    readCountRanges numReads [a] = readCount numReads a := by
  simp [readCountRanges]

/-- The read count reported by the index built in step `s` is below the
step's termination threshold: `batch_size` for a self step (main.cpp:135)
and `2 * batch_size` for a cross step (main.cpp:185). -/
def stepLow (numReads indexSize : Nat) (s : Step) : Prop :=
  readCountRanges numReads s.ranges <
    (if s.kind = StepKind.self then indexSize else 2 * indexSize)

instance (numReads indexSize : Nat) (s : Step) :
    Decidable (stepLow numReads indexSize s) := by
  unfold stepLow
  exact Nat.decLt _ _

/-- Exact termination behaviour between consecutive steps: a non-final
self step reported a full `batch_size` reads (otherwise the run would have
stopped, main.cpp:135-137) and is followed by a cross step; a non-final
cross step is followed by a self step exactly when its combined count was
below `2 * batch_size` (otherwise the same inner sweep visits the next
target window, main.cpp:185-187). -/
def termPair (numReads indexSize : Nat) (s s' : Step) : Prop :=
  if s.kind = StepKind.self then
    ¬ stepLow numReads indexSize s ∧ s'.kind = StepKind.cross
  else
    (stepLow numReads indexSize s ↔ s'.kind = StepKind.self)

instance (numReads indexSize : Nat) (s s' : Step) :
    Decidable (termPair numReads indexSize s s') :=
  if h : s.kind = StepKind.self then
    decidable_of_iff
      (¬ stepLow numReads indexSize s ∧ s'.kind = StepKind.cross)
      (by unfold termPair; rw [if_pos h])
  else
    decidable_of_iff
      (stepLow numReads indexSize s ↔ s'.kind = StepKind.self)
      (by unfold termPair; rw [if_neg h])

theorem innerLoop_term (numReads indexSize : Nat) (hB : 0 < indexSize)
    (q : Nat) :
    ∀ fuel targetStart, 1 ≤ fuel → numReads + 1 ≤ fuel + targetStart →
      innerLoop numReads indexSize ⟨q, q + indexSize⟩ fuel targetStart ≠ [] ∧
        List.Chain' (termPair numReads indexSize)
          (innerLoop numReads indexSize ⟨q, q + indexSize⟩ fuel targetStart) ∧
        ∀ s ∈ (innerLoop numReads indexSize ⟨q, q + indexSize⟩ fuel
            targetStart).getLast?,
          s.kind = StepKind.cross ∧ stepLow numReads indexSize s := by
  intro fuel
  induction fuel with
  | zero => intro t h1 _; omega
  | succ f ih =>
    intro t _ hinv
    simp only [innerLoop]
    by_cases h : readCountRanges numReads
        [⟨q, q + indexSize⟩, ⟨t, t + indexSize⟩] < 2 * indexSize
    · rw [if_pos h]
      refine ⟨by simp, List.chain'_singleton _, ?_⟩
      intro s hs
      rw [Option.mem_def, List.getLast?_singleton, Option.some.injEq] at hs
      subst hs
      refine ⟨rfl, ?_⟩
      unfold stepLow
      rw [if_neg (by nofun)]
      exact h
    · rw [if_neg h]
      have hcnt : 2 * indexSize ≤
          readCount numReads ⟨q, q + indexSize⟩ +
            readCount numReads ⟨t, t + indexSize⟩ := by
        rw [← readCountRanges_pair]
        omega
      have hq := readCount_le numReads q indexSize
      have htpos : 0 < readCount numReads ⟨t, t + indexSize⟩ := by omega
      have htlt : t < numReads := readCount_pos_start_lt htpos
      have hf : 1 ≤ f := by omega
      obtain ⟨hne, hchain, hlast⟩ :=
        ih (t + indexSize + 1) hf (by omega)
      refine ⟨by simp, ?_, ?_⟩
      · rw [List.chain'_cons']
        refine ⟨?_, hchain⟩
        intro y hy
        obtain ⟨f', rfl⟩ : ∃ f', f = f' + 1 := ⟨f - 1, by omega⟩
        rw [Option.mem_def, innerLoop_head] at hy
        obtain rfl := Option.some.inj hy
        unfold termPair
        rw [if_neg (by nofun)]
        constructor
        · intro hlow
          exact absurd (by
            unfold stepLow at hlow
            rw [if_neg (by nofun)] at hlow
            exact hlow) h
        · intro hk
          exact absurd hk (by nofun)
      · rw [getLast?_cons_of_ne_nil _ hne]
        exact hlast

theorem outerLoop_term (numReads indexSize : Nat) (hB : 0 < indexSize) :
    ∀ fuel queryStart, 1 ≤ fuel → numReads + 1 ≤ fuel + queryStart →
      outerLoop numReads indexSize fuel queryStart ≠ [] ∧
        List.Chain' (termPair numReads indexSize)
          (outerLoop numReads indexSize fuel queryStart) ∧
        ∀ s ∈ (outerLoop numReads indexSize fuel queryStart).getLast?,
          s.kind = StepKind.self ∧ stepLow numReads indexSize s := by
  intro fuel
  induction fuel with
  | zero => intro q h1 _; omega
  | succ f ih =>
    intro q _ hinv
    simp only [outerLoop]
    by_cases h : readCount numReads ⟨q, q + indexSize⟩ < indexSize
    · rw [if_pos h]
      refine ⟨by simp, List.chain'_singleton _, ?_⟩
      intro s hs
      rw [Option.mem_def, List.getLast?_singleton, Option.some.injEq] at hs
      subst hs
      refine ⟨rfl, ?_⟩
      unfold stepLow
      rw [if_pos rfl, readCountRanges_single]
      exact h
    · rw [if_neg h]
      have hqlt : q < numReads :=
        readCount_pos_start_lt (r := ⟨q, q + indexSize⟩) (by omega)
      have hf : 1 ≤ f := by omega
      obtain ⟨ine, ichain, ilast⟩ :=
        innerLoop_term numReads indexSize hB q f (q + indexSize + 1) hf
          (by omega)
      obtain ⟨one, ochain, olast⟩ := ih (q + indexSize + 1) hf (by omega)
      obtain ⟨f', rfl⟩ : ∃ f', f = f' + 1 := ⟨f - 1, by omega⟩
      refine ⟨by simp, ?_, ?_⟩
      · rw [List.chain'_cons']
        constructor
        · intro y hy
          rw [Option.mem_def,
            List.head?_append_of_ne_nil _ (innerLoop_ne_nil _ _ _ _ _),
            innerLoop_head] at hy
          obtain rfl := Option.some.inj hy
          unfold termPair
          rw [if_pos rfl]
          refine ⟨?_, rfl⟩
          unfold stepLow
          rw [if_pos rfl, readCountRanges_single]
          exact h
        · rw [List.chain'_append]
          refine ⟨ichain, ochain, ?_⟩
          intro x hx y hy
          obtain ⟨hxcross, hxlow⟩ := ilast x hx
          rw [Option.mem_def, outerLoop_head] at hy
          obtain rfl := Option.some.inj hy
          unfold termPair
          rw [if_neg (by rw [hxcross]; nofun)]
          exact ⟨fun _ => rfl, fun _ => hxlow⟩
      · rw [getLast?_cons_of_ne_nil _ (by
            intro hnil
            exact ine (List.append_eq_nil.mp hnil).1),
          List.getLast?_append_of_ne_nil _ one]
        exact olast

/-- C2. Exact termination: the outer sweep stops exactly when an
OUTER_SELF step's index reports fewer than `batch_size` reads (and then no
INNER_CROSS step runs for that window, the whole run ends,
main.cpp:135-137); the inner sweep stops exactly when an INNER_CROSS
step's combined two-range index reports fewer than `2 * batch_size` reads
(and then the next step, if any, is the next query window's self step, not
a further target window, main.cpp:185-187).  Formally: every run is a
nonempty trace whose consecutive steps satisfy `termPair` and whose final
step is a self step with low count. -/
theorem c2_termination (numReads indexSize : Nat) (hB : 0 < indexSize) :
    run numReads indexSize ≠ [] ∧
      List.Chain' (termPair numReads indexSize) (run numReads indexSize) ∧
      ∀ s ∈ (run numReads indexSize).getLast?,
        s.kind = StepKind.self ∧ stepLow numReads indexSize s :=
  outerLoop_term numReads indexSize hB (numReads + 2) 0 (by omega) (by omega)

/-- Closed witness for `c2_termination` at `numReads = 1`,
`indexSize = 1`. -/
theorem c2_termination_witness :
    List.Chain' (termPair 1 1) (run 1 1) ∧
      (⟨.self, [⟨2, 3⟩], 0⟩ : Step).kind = StepKind.self ∧
      stepLow 1 1 ⟨.self, [⟨2, 3⟩], 0⟩ :=
  ⟨(c2_termination 1 1 (by decide)).2.1,
    (c2_termination 1 1 (by decide)).2.2 _ (by decide)⟩

/-- C4. Between consecutive steps of every run: advancing the query
window sets `query_start` to the old `query_end + 1` and `query_end` to the
new `query_start + batch_size` (main.cpp:193-194); advancing the target
window sets `target_start` to the old `target_end + 1` and `target_end` to
the new `target_start + batch_size` (main.cpp:189-190); and on entering
INNER_CROSS the initial target window starts at `query_end + 1`
(main.cpp:132-133). -/
theorem c4_window_advancement (numReads indexSize : Nat) :
    List.Chain' (advOk indexSize) (run numReads indexSize) :=
  outerLoop_chain_adv numReads indexSize (numReads + 2) 0

/-- Closed witness for `c7_cross_two_ranges`, at the first cross step of
`run 3 1`. -/
theorem c7_cross_two_ranges_witness :
    ∃ qs ts, (⟨.cross, [⟨0, 1⟩, ⟨2, 3⟩], 1⟩ : Step).ranges =
      [⟨qs, qs + 1⟩, ⟨ts, ts + 1⟩] ∧ qs + 1 + 1 ≤ ts :=
  c7_cross_two_ranges 3 1 ⟨.cross, [⟨0, 1⟩, ⟨2, 3⟩], 1⟩ (by decide) rfl

/-- C6 is refuted at `batch_size = 2`, `N = 2 * 2 = 4`: the run
performs two OUTER_SELF steps and one INNER_CROSS step, not one of each —
after the inner sweep ends, the outer loop always runs one more self step
before it can observe a low read count (main.cpp:85, 135-137). -/
theorem c6_counterexample :
    (selfSteps (run (2 * 2) 2)).length = 2 ∧
      (crossSteps (run (2 * 2) 2)).length = 1 ∧
      decide ((selfSteps (run (2 * 2) 2)).length = 1 ∧
        (crossSteps (run (2 * 2) 2)).length = 1) = false := by
  decide

/-- C6 amended. For a collection of size exactly `N = 2 * batch_size`
(with `batch_size ≥ 1`) the run performs exactly three steps: an
OUTER_SELF step, one INNER_CROSS step (whose combined count `2B - 1` is
below `2B` because of the skipped read, ending the inner sweep), and a
final OUTER_SELF step on the advanced query window, which reports fewer
than `batch_size` reads and ends the sweep. -/
theorem c6_amended (indexSize : Nat) (hB : 0 < indexSize) :
    (run (2 * indexSize) indexSize).length = 3 ∧
      (selfSteps (run (2 * indexSize) indexSize)).length = 2 ∧
      (crossSteps (run (2 * indexSize) indexSize)).length = 1 := by
  have hc1 : ¬ (readCount (2 * indexSize) ⟨0, 0 + indexSize⟩ < indexSize) := by
    show ¬ (min (0 + indexSize) (2 * indexSize) - min 0 (2 * indexSize) <
      indexSize)
    omega
  have hc2 : readCountRanges (2 * indexSize)
      [⟨0, 0 + indexSize⟩,
        ⟨0 + indexSize + 1, 0 + indexSize + 1 + indexSize⟩] <
      2 * indexSize := by
    rw [readCountRanges_pair]
    show min (0 + indexSize) (2 * indexSize) - min 0 (2 * indexSize) +
      (min (0 + indexSize + 1 + indexSize) (2 * indexSize) -
        min (0 + indexSize + 1) (2 * indexSize)) < 2 * indexSize
    omega
  have hc3 : readCount (2 * indexSize)
      ⟨0 + indexSize + 1, 0 + indexSize + 1 + indexSize⟩ < indexSize := by
    show min (0 + indexSize + 1 + indexSize) (2 * indexSize) -
      min (0 + indexSize + 1) (2 * indexSize) < indexSize
    omega
  simp only [run]
  rw [show 2 * indexSize + 2 = 2 * indexSize + 1 + 1 from rfl]
  simp only [outerLoop, innerLoop]
  rw [if_neg hc1, if_pos hc2, if_pos hc3]
  simp [selfSteps, crossSteps]

/-- Closed witness for `c6_amended` at `batch_size = 2`. -/
theorem c6_amended_witness :
    (run (2 * 2) 2).length = 3 ∧
      (selfSteps (run (2 * 2) 2)).length = 2 ∧
      (crossSteps (run (2 * 2) 2)).length = 1 :=
  c6_amended 2 (by decide)

/-- The PAF records written to standard output over a whole run
(`print_paf`, main.cpp:126, 179): each step's records, in step order.
`emit` abstracts the external Matcher / Overlapper / serialisation
collaborators: the records produced for one step's index and anchors. -/
def pafEmissions (emit : Step → List String) (numReads indexSize : Nat) :
    List String :=
  ((run numReads indexSize).map emit).flatten

/-- C8. Determinism: two executions of the controller on the same
input collection and configuration, with identical collaborator behaviour,
emit identical sequences of PAF records in the same order — the controller
itself has no randomness, and its window order is a function of
`(numReads, indexSize)` alone. -/
theorem c8_deterministic_output (emit₁ emit₂ : Step → List String)
    (numReads indexSize : Nat) (h : ∀ s, emit₁ s = emit₂ s) :
    pafEmissions emit₁ numReads indexSize =
      pafEmissions emit₂ numReads indexSize := by
  unfold pafEmissions
  rw [funext h]

/-- Closed witness for `c8_deterministic_output`: two syntactically
different but extensionally equal collaborators produce the same output on
`run 1 1`. -/
theorem c8_deterministic_output_witness :
    pafEmissions (fun _ => ["rec"]) 1 1 =
      pafEmissions (fun _ => ["rec"] ++ []) 1 1 :=
  c8_deterministic_output _ _ 1 1 (fun _ => rfl)

/-- The timed pipeline stages of one step. -/
inductive Stage
  | index
  | matcher
  | overlapper
  | output
deriving DecidableEq

/-- The four cumulative duration counters of `main` (main.cpp:80-83). -/
structure Timers where
  index_time : Nat
  matcher_time : Nat
  overlapper_time : Nat
  paf_time : Nat
deriving DecidableEq

def Timers.get (t : Timers) : Stage → Nat
  | .index => t.index_time
  | .matcher => t.matcher_time
  | .overlapper => t.overlapper_time
  | .output => t.paf_time

/-- The four `+=` updates performed by one step, self or cross
(main.cpp:100, 111, 122, 129 and 153, 164, 175, 182): each counter gains
the duration `d` of its own stage in this step, and nothing else. -/
def accumStep (d : Stage → Nat) (t : Timers) : Timers :=
  ⟨t.index_time + d .index, t.matcher_time + d .matcher,
    t.overlapper_time + d .overlapper, t.paf_time + d .output⟩

/-- Counter state after the first `n` steps of a run whose step `i` has
stage durations `d i`; counters start at zero (main.cpp:80-83). -/
def timersAfter (d : Nat → Stage → Nat) : Nat → Timers
  | 0 => ⟨0, 0, 0, 0⟩
  | n + 1 => accumStep (d n) (timersAfter d n)

/-- The counter values reported at the end of the run
(main.cpp:196-200). -/
def finalTimers (d : Nat → Stage → Nat) (numReads indexSize : Nat) :
    Timers :=
  timersAfter d (run numReads indexSize).length

theorem timersAfter_sum (d : Nat → Stage → Nat) (st : Stage) :
    ∀ n, (timersAfter d n).get st = ∑ i ∈ Finset.range n, d i st := by
  intro n
  induction n with
  | zero => cases st <;> rfl
  | succ n ih =>
    rw [Finset.sum_range_succ, ← ih]
    cases st <;> rfl

/-- C9. Each cumulative timing counter starts at zero, gains exactly
its own stage's duration on every step (self or cross) and on no other
occasion, is thereby non-decreasing across steps, and its final reported
value is the sum of that stage's per-step durations over all steps of the
run — none omitted, none counted twice. -/
theorem c9_timing_counters (d : Nat → Stage → Nat)
    (numReads indexSize : Nat) (st : Stage) :
    (timersAfter d 0).get st = 0 ∧
      (∀ n, (timersAfter d (n + 1)).get st =
        (timersAfter d n).get st + d n st) ∧
      (∀ m n, m ≤ n →
        (timersAfter d m).get st ≤ (timersAfter d n).get st) ∧
      (finalTimers d numReads indexSize).get st =
        ∑ i ∈ Finset.range (run numReads indexSize).length, d i st := by
  refine ⟨by cases st <;> rfl, (fun n => by cases st <;> rfl), ?_, ?_⟩
  · intro m n h
    induction h with
    | refl => exact Nat.le_refl _
    | step h ih =>
      refine Nat.le_trans ih ?_
      cases st <;> exact Nat.le_add_right _ _
  · exact timersAfter_sum d st _

/-- Closed witness for `c9_timing_counters` with durations
`d i _ = i + 1` on `run 1 1`. -/
theorem c9_timing_counters_witness :
    (timersAfter (fun i _ => i + 1) 0).get Stage.index = 0 ∧
      (timersAfter (fun i _ => i + 1) 1).get Stage.index ≤
        (timersAfter (fun i _ => i + 1) 3).get Stage.index ∧
      (finalTimers (fun i _ => i + 1) 1 1).get Stage.index =
        ∑ i ∈ Finset.range (run 1 1).length, (i + 1) :=
  ⟨(c9_timing_counters (fun i _ => i + 1) 1 1 Stage.index).1,
    (c9_timing_counters (fun i _ => i + 1) 1 1 Stage.index).2.2.1 1 3
      (by omega),
    (c9_timing_counters (fun i _ => i + 1) 1 1 Stage.index).2.2.2⟩

/-- A command-line option as classified by the `getopt_long` loop of
`main` (main.cpp:41-58): a recognised option carrying its parsed argument
value, the help flag, or anything `getopt_long` rejects (unknown option or
missing required argument), for which the `default` branch runs. -/
inductive CliOpt
  | kmer (v : Nat)
  | window (v : Nat)
  | indexSize (v : Nat)
  | help
  | unknown
deriving DecidableEq

/-- The observable outcome of the pre-sweep CLI handling: process
termination with an exit code (recording whether usage was printed and
whether the maximum-k message went to the error stream), or proceeding
into the sweep with the parsed configuration. -/
inductive CliResult
  | exitWith (code : Nat) (usagePrinted : Bool) (maxKPrinted : Bool)
  | proceed (k w isize : Nat)
deriving DecidableEq

/-- The checks after the option loop (main.cpp:62-71): a missing
positional `<sequences>` argument prints usage and exits 1; `k` above the
index's maximum k-mer size prints the allowed maximum to the error stream
and exits 1; otherwise the sweep starts.  `maxK` models the external
constant `Index::maximum_kmer_size()`, declared outside the given
sources. -/
def afterOpts (hasSeq : Bool) (maxK k w isize : Nat) : CliResult :=
  if !hasSeq then .exitWith 1 true false
  else if maxK < k then .exitWith 1 false true
  else .proceed k w isize

/-- The `getopt_long` loop of `main` (main.cpp:41-58): each recognised
option updates its variable; `-h` prints usage and exits 0; an
unrecognised option exits 1 without printing. -/
def optLoop (hasSeq : Bool) (maxK k w isize : Nat) :
    List CliOpt → CliResult
  | [] => afterOpts hasSeq maxK k w isize
  | o :: rest =>
    match o with
    | .kmer v => optLoop hasSeq maxK v w isize rest
    | .window v => optLoop hasSeq maxK k v isize rest
    | .indexSize v => optLoop hasSeq maxK k w v rest
    | .help => .exitWith 0 true false
    | .unknown => .exitWith 1 false false

/-- The whole pre-sweep prelude of `main`: defaults `k = 15`, `w = 15`,
`index_size = 10000` (main.cpp:36-38), then the option loop and the
post-loop checks. -/
def cliPrelude (opts : List CliOpt) (hasSeq : Bool) (maxK : Nat) :
    CliResult :=
  optLoop hasSeq maxK 15 15 10000 opts

/-- Accumulation of the `-k` option over the loop (main.cpp:43-45). -/
def kStep (k : Nat) (o : CliOpt) : Nat :=
  match o with
  | .kmer v => v
  | _ => k

/-- The value of `k` when the option loop finishes: the last `-k` argument
if any, else the default 15. -/
def effectiveK (opts : List CliOpt) : Nat :=
  opts.foldl kStep 15

theorem optLoop_no_exit (hasSeq : Bool) (maxK : Nat) :
    ∀ (opts : List CliOpt) (k w isize : Nat),
      (∀ o ∈ opts, o ≠ CliOpt.help ∧ o ≠ CliOpt.unknown) →
      ∃ w' isize', optLoop hasSeq maxK k w isize opts =
        afterOpts hasSeq maxK (opts.foldl kStep k) w' isize'
  | [], k, w, isize, _ => ⟨w, isize, rfl⟩
  | o :: rest, k, w, isize, h => by
    have hrest := fun o ho => h o (List.mem_cons_of_mem _ ho)
    match o with
    | .kmer v => exact optLoop_no_exit hasSeq maxK rest v w isize hrest
    | .window v => exact optLoop_no_exit hasSeq maxK rest k v isize hrest
    | .indexSize v => exact optLoop_no_exit hasSeq maxK rest k w v hrest
    | .help => exact absurd rfl (h _ (List.mem_cons_self _ _)).1
    | .unknown => exact absurd rfl (h _ (List.mem_cons_self _ _)).2

theorem optLoop_reaches (hasSeq : Bool) (maxK : Nat) (x : CliOpt)
    (post : List CliOpt) :
    ∀ (pre : List CliOpt) (k w isize : Nat),
      (∀ o ∈ pre, o ≠ CliOpt.help ∧ o ≠ CliOpt.unknown) →
      ∃ k' w' isize', optLoop hasSeq maxK k w isize (pre ++ x :: post) =
        optLoop hasSeq maxK k' w' isize' (x :: post)
  | [], k, w, isize, _ => ⟨k, w, isize, rfl⟩
  | o :: pre, k, w, isize, h => by
    have hpre := fun o ho => h o (List.mem_cons_of_mem _ ho)
    match o with
    | .kmer v => exact optLoop_reaches hasSeq maxK x post pre v w isize hpre
    | .window v => exact optLoop_reaches hasSeq maxK x post pre k v isize hpre
    | .indexSize v =>
      exact optLoop_reaches hasSeq maxK x post pre k w v hpre
    | .help => exact absurd rfl (h _ (List.mem_cons_self _ _)).1
    | .unknown => exact absurd rfl (h _ (List.mem_cons_self _ _)).2

/-- C10. Before the sweep starts: with no help flag and no
unrecognised option, a missing positional `<sequences>` argument exits
with status 1 (after printing usage, main.cpp:62-65); an unrecognised
option exits with status 1 (main.cpp:55-56); `-h`/`--help` prints usage
and exits with status 0 (main.cpp:52-54); and a requested `k` above
`maximum_kmer_size()` exits with status 1 after printing the allowed
maximum to the error stream (main.cpp:67-71). -/
theorem c10_cli_exit_codes (opts : List CliOpt) (hasSeq : Bool)
    (maxK : Nat) :
    ((∀ o ∈ opts, o ≠ CliOpt.help ∧ o ≠ CliOpt.unknown) → hasSeq = false →
      cliPrelude opts hasSeq maxK = .exitWith 1 true false) ∧
    (∀ pre post, opts = pre ++ CliOpt.unknown :: post →
      (∀ o ∈ pre, o ≠ CliOpt.help ∧ o ≠ CliOpt.unknown) →
      cliPrelude opts hasSeq maxK = .exitWith 1 false false) ∧
    (∀ pre post, opts = pre ++ CliOpt.help :: post →
      (∀ o ∈ pre, o ≠ CliOpt.help ∧ o ≠ CliOpt.unknown) →
      cliPrelude opts hasSeq maxK = .exitWith 0 true false) ∧
    ((∀ o ∈ opts, o ≠ CliOpt.help ∧ o ≠ CliOpt.unknown) → hasSeq = true →
      maxK < effectiveK opts →
      cliPrelude opts hasSeq maxK = .exitWith 1 false true) := by
  refine ⟨?_, ?_, ?_, ?_⟩
  · intro hclean hseq
    obtain ⟨w', i', heq⟩ :=
      optLoop_no_exit hasSeq maxK opts 15 15 10000 hclean
    subst hseq
    unfold cliPrelude
    rw [heq]
    rfl
  · intro pre post hsplit hclean
    subst hsplit
    obtain ⟨k', w', i', heq⟩ :=
      optLoop_reaches hasSeq maxK CliOpt.unknown post pre 15 15 10000 hclean
    unfold cliPrelude
    rw [heq]
    rfl
  · intro pre post hsplit hclean
    subst hsplit
    obtain ⟨k', w', i', heq⟩ :=
      optLoop_reaches hasSeq maxK CliOpt.help post pre 15 15 10000 hclean
    unfold cliPrelude
    rw [heq]
    rfl
  · intro hclean hseq hk
    obtain ⟨w', i', heq⟩ :=
      optLoop_no_exit hasSeq maxK opts 15 15 10000 hclean
    subst hseq
    unfold cliPrelude
    rw [heq]
    unfold effectiveK at hk
    unfold afterOpts
    rw [if_neg (by simp), if_pos hk]

/-- Closed witness for `c10_cli_exit_codes`: a too-large `k` exits 1 with
the maximum-k message, and `-h` after a recognised option exits 0 with
usage printed. -/
theorem c10_cli_exit_codes_witness :
    cliPrelude [CliOpt.kmer 99] true 23 = CliResult.exitWith 1 false true ∧
      cliPrelude [CliOpt.window 5, CliOpt.help] true 23 =
        CliResult.exitWith 0 true false :=
  ⟨(c10_cli_exit_codes [CliOpt.kmer 99] true 23).2.2.2 (by decide) rfl
      (by decide),
    (c10_cli_exit_codes [CliOpt.window 5, CliOpt.help] true 23).2.2.1
      [CliOpt.window 5] [] rfl (by decide)⟩
